import Mathlib

/-!
Verification of the `article_extractor` content-extraction core.

The development shallowly embeds the code of
`src/article_extractor/content_sanitizer.py`,
`src/article_extractor/candidate_finder.py` and
`src/article_extractor/types.py`.  Strings are handled as `List Char`
(Python's `str` semantics: `in`, `startswith`, `strip`, `lower`,
`rpartition`, `split("/")[-1]` are given explicit executable models).

Modules `scorer.py`, `cache.py`, `constants.py` and `dom_utils.py` are
imported by the embedded files but their sources are not part of the
repository snapshot; the definitions taken from them are modelled from the
specification and are marked `Modelled from the spec:` in their doc
comments.
-/

namespace ArticleExtractor

/-! ## Python string primitives -/

/-- Python whitespace for `str.strip()` (ASCII subset: space, tab, newline,
carriage return, vertical tab, form feed). -/
def isPyWS (c : Char) : Bool :=
  c == ' ' || c == '\t' || c == '\n' || c == '\r' || c == '\x0b' || c == '\x0c'

/-- Python `str.strip()`: drop leading and trailing whitespace. -/
def pyStrip (l : List Char) : List Char :=
  ((l.dropWhile isPyWS).reverse.dropWhile isPyWS).reverse

/-- ASCII lowering of one character (the inputs checked by the sanitizer are
ASCII, where Python `str.lower()` agrees with this). -/
def pyLowerChar (c : Char) : Char :=
  if 'A' ≤ c ∧ c ≤ 'Z' then Char.ofNat (c.toNat + 32) else c

/-- Python `str.lower()`. -/
def pyLower (l : List Char) : List Char := l.map pyLowerChar

/-- Python `needle in haystack` substring containment. -/
def subSeqIn (needle : List Char) : List Char → Bool
  | [] => needle.isEmpty
  | c :: t => needle.isPrefixOf (c :: t) || subSeqIn needle t

/-- Python `s.startswith((p1, p2, ...))`: true when some listed pattern is a
leading segment of `s`. -/
def startsWithOneOf (l : List Char) (ps : List (List Char)) : Bool :=
  ps.any (fun p => p.isPrefixOf l)

/-- Python `s.split("/")[-1]`: the segment after the last slash. -/
def lastPathSegment (l : List Char) : List Char :=
  (l.reverse.takeWhile (fun c => c ≠ '/')).reverse

/-! ## Content sanitizer: image `src` validity
(`content_sanitizer.py`, `_has_valid_image_src` / `_is_valid_image_filename`) -/

/-- The `tracking_patterns` list of `_has_valid_image_src`. -/
def tracking_patterns : List (List Char) :=
  ["/pixel.gif", "/pixel.png", "/1x1.gif", "/1x1.png",
   "/spacer.gif", "/spacer.png", "/blank.gif", "/blank.png"].map String.toList

/-- The tracking host keywords of `_has_valid_image_src`
(`["tracking.", "analytics.", "metrics."]`). -/
def tracking_domain_starts : List (List Char) :=
  ["tracking.", "analytics.", "metrics."].map String.toList

/-- The `src_str.startswith(("data:", "http", "//", "/", "./", "../"))`
pattern tuple of `_has_valid_image_src`. -/
def src_path_starts : List (List Char) :=
  ["data:", "http", "//", "/", "./", "../"].map String.toList

/-- The `valid_extensions` set of `_is_valid_image_filename`. -/
def valid_extensions : List (List Char) :=
  ["jpg", "jpeg", "png", "gif", "webp", "svg", "bmp",
   "avif", "apng", "tiff", "jfif"].map String.toList

/-- `src_str.find("://")`: the remainder of the string after the first
occurrence of `://`, or `none` when `"://" not in src_str`. -/
def afterSchemeMarker : List Char → Option (List Char)
  | [] => none
  | c :: t =>
    if [':', '/', '/'].isPrefixOf (c :: t) then some ((c :: t).drop 3)
    else afterSchemeMarker t

/-- The tracking-domain check of `_has_valid_image_src`: when `"://"` occurs,
extract the host (up to the next `/` or end of string), lower-case it, and
test whether it starts with a tracking keyword. -/
def trackingDomainHit (l : List Char) : Bool :=
  match afterSchemeMarker l with
  | none => false
  | some rest =>
    let domain := pyLower (rest.takeWhile (fun c => c ≠ '/'))
    startsWithOneOf domain tracking_domain_starts

/-- `_is_valid_image_filename(filename)` from `content_sanitizer.py`:
take the last path segment, `rpartition` on the final dot, require a
whitelisted extension and a stripped basename of length at least 2. -/
def _is_valid_image_filename (fl : List Char) : Bool :=
  let filename := lastPathSegment fl
  let rev := filename.reverse
  let extRev := rev.takeWhile (fun c => c ≠ '.')
  if extRev.length == rev.length then false
  else
    let ext := extRev.reverse
    let name := (rev.drop (extRev.length + 1)).reverse
    valid_extensions.contains ext && decide (2 ≤ (pyStrip name).length)

/-- The body of `_has_valid_image_src` acting on the already stripped,
non-empty `src_str`: tracking filename patterns are checked on the lowered
string, the tracking-host check on the raw string, then the path-start
whitelist on the raw string, and finally the bare-filename fallback on the
lowered string. -/
def _has_valid_image_src_str (srcStr : List Char) : Bool :=
  let srcLower := pyLower srcStr
  if tracking_patterns.any (fun p => subSeqIn p srcLower) then false
  else if trackingDomainHit srcStr then false
  else if startsWithOneOf srcStr src_path_starts then true
  else _is_valid_image_filename srcLower

/-! ## Content sanitizer: DOM subtree model -/

/-- DOM node of the candidate subtree handed to the sanitizer: either a text
node or an element with a tag, an attribute association list and an ordered
child list (the external parser's `SimpleDomNode`). -/
inductive DNode where
  | text : String → DNode
  | elem : String → List (String × String) → List DNode → DNode

/-- `attrs` of a node (`getattr(node, "attrs", {})`; text nodes carry none). -/
def DNode.attrsOf : DNode → List (String × String)
  | .text _ => []
  | .elem _ a _ => a

/-- `attrs.get(key)` on the attribute mapping: first binding of the key. -/
def getAttrVal (attrs : List (String × String)) (k : String) : Option String :=
  (attrs.find? (fun p => p.1 == k)).map (fun p => p.2)

/-- `_has_valid_image_src(node)` from `content_sanitizer.py`: fetch `src`,
reject a missing or blank value, then apply the string-level rules. -/
def _has_valid_image_src (n : DNode) : Bool :=
  match getAttrVal n.attrsOf "src" with
  | none => false
  | some src =>
    let srcStr := pyStrip src.toList
    if srcStr.isEmpty then false else _has_valid_image_src_str srcStr

/-- Tag of a node (text nodes get the sentinel `#text`, which never occurs in
a tag list). -/
def DNode.tagOf : DNode → String
  | .text _ => "#text"
  | .elem t _ _ => t

/-- Child list of a node. -/
def DNode.childrenOf : DNode → List DNode
  | .text _ => []
  | .elem _ _ cs => cs

/-- Whether a node is an `img` element. -/
def isImg (n : DNode) : Bool := n.tagOf == "img"

/-- Membership of a node's tag in a pass's tag tuple. -/
def tagIn (n : DNode) (tags : List String) : Bool := tags.contains n.tagOf

mutual

/-- `node.to_text()` of the external parser: concatenation of the data of all
text descendants, in document order. -/
def nodeText : DNode → List Char
  | .text s => s.toList
  | .elem _ _ cs => nodeTextList cs

/-- `nodeText` over a child list. -/
def nodeTextList : List DNode → List Char
  | [] => []
  | c :: rest => nodeText c ++ nodeTextList rest

end

/-- Whether a character list contains a non-whitespace character, i.e. whether
its `strip()` is non-empty. -/
def anyNonWS (l : List Char) : Bool := l.any (fun c => !isPyWS c)

mutual

/-- `any(_has_valid_image_src(img) for img in node.query("img"))`: some
proper descendant of the node is an `img` element with a valid `src`. -/
def hasValidImgDesc : DNode → Bool
  | .text _ => false
  | .elem _ _ cs => hasValidImgL cs

/-- `hasValidImgDesc` over a child list (each child counts itself and its own
descendants, matching a descendant query from the parent). -/
def hasValidImgL : List DNode → Bool
  | [] => false
  | c :: rest => ((isImg c && _has_valid_image_src c) || hasValidImgDesc c) || hasValidImgL rest

end

/-- `_node_has_visible_content(node)` from `content_sanitizer.py`: non-empty
stripped text, or some descendant `img` with a valid `src`. -/
def nodeHasVisibleContent (n : DNode) : Bool :=
  !(pyStrip (nodeText n)).isEmpty || hasValidImgDesc n

mutual

/-- One removal pass of `_remove_nodes(root, tags, keep=keep)`: the source
collects the matching nodes top-down (document order) and detaches each node
failing `keep` from its parent.  Since ancestors precede descendants in that
order, every node still attached has its `keep` evaluated on its untouched
original subtree, and detaching a node drops its whole subtree; this
functional translation performs exactly those removals.  The root itself is
never removed here: detaching the root from its (out-of-subtree) parent does
not change the subtree the sanitizer goes on working with. -/
def runPass (tags : List String) (keep : DNode → Bool) : DNode → DNode
  | .text s => .text s
  | .elem t a cs => .elem t a (runPassL tags keep cs)

/-- `runPass` over a child list: a child matching the pass's tags and failing
`keep` is removed with its subtree; any other child is recursed into. -/
def runPassL (tags : List String) (keep : DNode → Bool) : List DNode → List DNode
  | [] => []
  | c :: rest =>
    if tagIn c tags && !keep c then runPassL tags keep rest
    else runPass tags keep c :: runPassL tags keep rest

end

/-- `_remove_empty_links(root)`: drop `a` elements without visible content. -/
def _remove_empty_links (t : DNode) : DNode := runPass ["a"] nodeHasVisibleContent t

/-- `_remove_empty_images(root)`: drop `img` elements without a valid src. -/
def _remove_empty_images (t : DNode) : DNode := runPass ["img"] _has_valid_image_src t

/-- `_remove_empty_blocks(root)`: drop `li`, `p`, `div` elements without
visible content. -/
def _remove_empty_blocks (t : DNode) : DNode :=
  runPass ["li", "p", "div"] nodeHasVisibleContent t

/-- `sanitize_content(node)` from `content_sanitizer.py`: the three removal
passes in their fixed order. -/
def sanitize_content (t : DNode) : DNode :=
  _remove_empty_blocks (_remove_empty_images (_remove_empty_links t))

mutual

/-- A per-node predicate holds on a node and all of its descendants. -/
def allN (p : DNode → Bool) : DNode → Bool
  | .text s => p (.text s)
  | .elem t a cs => p (.elem t a cs) && allNL p cs

/-- `allN` over a child list. -/
def allNL (p : DNode → Bool) : List DNode → Bool
  | [] => true
  | c :: rest => allN p c && allNL p rest

end

/-- Per-node well-formedness of parsed HTML: `img` is a void element, so an
`img` node has no children.  The external parser never produces `img`
elements with children. -/
def imgNoKids (n : DNode) : Bool := !isImg n || n.childrenOf.isEmpty

/-- A subtree in which every `img` element is childless (as delivered by the
HTML parser). -/
def imgChildless (t : DNode) : Bool := allN imgNoKids t

/-- A node counted by an `img` descendant query rooted just above it: the
node itself as a valid image, or a valid image among its descendants. -/
def validImgIncl (n : DNode) : Bool :=
  (isImg n && _has_valid_image_src n) || hasValidImgDesc n

/-- A node is safe for a removal pass: it is not removable (tag not matched,
or `keep` holds), or it contributes nothing visible (no non-whitespace text
and no valid image in or below it), so that removing it perturbs no other
node's visible-content status. -/
def remOK (tags : List String) (keep : DNode → Bool) (n : DNode) : Bool :=
  (!(tagIn n tags) || keep n) || (!(anyNonWS (nodeText n)) && !(validImgIncl n))

mutual

/-- No node below the root is removable by a `runPass` with these tags and
this keep predicate. -/
def passClean (tags : List String) (keep : DNode → Bool) : DNode → Bool
  | .text _ => true
  | .elem _ _ cs => passCleanL tags keep cs

/-- `passClean` over a child list. -/
def passCleanL (tags : List String) (keep : DNode → Bool) : List DNode → Bool
  | [] => true
  | c :: rest =>
    (!(tagIn c tags) || keep c) && passClean tags keep c && passCleanL tags keep rest

end

/-- A concrete parser-shaped subtree: a `div` holding text, an empty link, a
tracking-pixel image, a valid image and a whitespace-only paragraph. -/
def sampleSubtree : DNode :=
  .elem "div" [("class", "content")]
    [.text "hello world",
     .elem "a" [("href", "#")] [],
     .elem "img" [("src", "/pixel.gif")] [],
     .elem "a" [] [.elem "img" [("src", "https://x.com/hero.jpg")] []],
     .elem "p" [] [.text "  "]]

/-! ## Candidate finder: document model

The candidate finder works on the parsed document of the external `justhtml`
collaborator: `doc.query(selector)` returns matches in document order, and
deduplication keys on `id(node)`.  The document is embedded as a tree of
nodes carrying an explicit identity (`nid`), the arena-index reading of
Python object identity; `query` is a pre-order traversal. -/

/-- Document node with identity.  Element nodes carry the arena index
standing for Python `id(node)`; text nodes are never returned by the
finder's queries. -/
inductive CNode where
  | text : String → CNode
  | elem : Nat → String → List (String × String) → List CNode → CNode

/-- Node identity, `id(node)` (text nodes are never identity-compared by the
finder). -/
def CNode.nid : CNode → Nat
  | .text _ => 0
  | .elem i _ _ _ => i

/-- Tag of a document node. -/
def CNode.tagOf : CNode → String
  | .text _ => "#text"
  | .elem _ t _ _ => t

/-- Attributes of a document node. -/
def CNode.attrsOf : CNode → List (String × String)
  | .text _ => []
  | .elem _ _ a _ => a

/-- Whether a document node is an element. -/
def CNode.isElem : CNode → Bool
  | .text _ => false
  | .elem _ _ _ _ => true

mutual

/-- `doc.query(...)`: all nodes of the tree satisfying a predicate, in
document (pre-order) order. -/
def collectNodes (p : CNode → Bool) : CNode → List CNode
  | .text s => if p (.text s) then [.text s] else []
  | .elem i t a cs =>
    (if p (.elem i t a cs) then [.elem i t a cs] else []) ++ collectNodesL p cs

/-- `collectNodes` over a child list. -/
def collectNodesL (p : CNode → Bool) : List CNode → List CNode
  | [] => []
  | c :: r => collectNodes p c ++ collectNodesL p r

end

/-- `doc.query(tag)`: elements with the given tag, in document order. -/
def queryTag (doc : CNode) (tag : String) : List CNode :=
  collectNodes (fun n => n.tagOf == tag) doc

/-- Whether a node matches the CSS selector `[role="main"]`. -/
def hasRoleMain (n : CNode) : Bool :=
  match getAttrVal n.attrsOf "role" with
  | some v => v == "main"
  | none => false

/-- `doc.query('[role="main"]')`. -/
def queryRoleMain (doc : CNode) : List CNode := collectNodes hasRoleMain doc

mutual

/-- All nodes of a tree, in document order. -/
def subnodes : CNode → List CNode
  | .text s => [.text s]
  | .elem i t a cs => .elem i t a cs :: subnodesL cs

/-- `subnodes` over a child list. -/
def subnodesL : List CNode → List CNode
  | [] => []
  | c :: r => subnodes c ++ subnodesL r

end

mutual

/-- Identities of all element nodes of a tree, in document order. -/
def nodeIds : CNode → List Nat
  | .text _ => []
  | .elem i _ _ cs => i :: nodeIdsL cs

/-- `nodeIds` over a child list. -/
def nodeIdsL : List CNode → List Nat
  | [] => []
  | c :: r => nodeIds c ++ nodeIdsL r

end

mutual

/-- Raw text of a document node (concatenated text descendants). -/
def cNodeText : CNode → List Char
  | .text s => s.toList
  | .elem _ _ _ cs => cNodeTextList cs

/-- `cNodeText` over a child list. -/
def cNodeTextList : List CNode → List Char
  | [] => []
  | c :: r => cNodeText c ++ cNodeTextList r

end

/-- Modelled from the spec: the Text Cache's length computation (`cache.py`
is not part of the snapshot) — "count of ... characters in the node's
rendered text". -/
def computeTextLength (n : CNode) : Nat := (cNodeText n).length

/-- Modelled from the spec: `MIN_CHAR_THRESHOLD` (`constants.py` is not part
of the snapshot); 500, matching the default `min_char_threshold` of
`ExtractionOptions` in `types.py`. -/
def MIN_CHAR_THRESHOLD : Nat := 500

/-- Modelled from the spec: the deny-list keyword patterns of
`is_unlikely_candidate` (`scorer.py` is not part of the snapshot):
"navigation, sidebar, ad, footer, comment, popup". -/
def unlikely_patterns : List (List Char) :=
  ["nav", "sidebar", "ad", "footer", "comment", "popup"].map String.toList

/-- Modelled from the spec: the allow-list patterns overriding the
deny-list ("article", "content"). -/
def likely_patterns : List (List Char) :=
  ["article", "content"].map String.toList

/-- The node's class/id attribute text, lower-cased for pattern matching. -/
def classIdText (n : CNode) : List Char :=
  pyLower (((getAttrVal n.attrsOf "class").getD "").toList
    ++ ' ' :: ((getAttrVal n.attrsOf "id").getD "").toList)

/-- Modelled from the spec: `is_unlikely_candidate(node)` of the Scorer —
true when the class/id text matches a deny-list pattern and no allow-list
pattern. -/
def is_unlikely_candidate (n : CNode) : Bool :=
  let s := classIdText n
  unlikely_patterns.any (fun p => subSeqIn p s)
    && !(likely_patterns.any (fun p => subSeqIn p s))

/-- `add_if_new(node)` from `candidate_finder.py`, on the `(seen,
candidates)` state: skip when the identity was seen or the node is an
unlikely candidate, else record the identity and append the node. -/
def add_if_new (st : List Nat × List CNode) (n : CNode) : List Nat × List CNode :=
  if st.1.contains n.nid || is_unlikely_candidate n then st
  else (n.nid :: st.1, st.2 ++ [n])

/-- The node sequence fed to `add_if_new` by the semantic phase: the
`_SEMANTIC_CANDIDATE_TAGS` loop (`article`, then `main`) followed by the
`_SEMANTIC_CANDIDATE_SELECTORS` loop (`[role="main"]`), unrolled over the
constant tuples. -/
def semanticQuery (doc : CNode) : List CNode :=
  queryTag doc "article" ++ queryTag doc "main" ++ queryRoleMain doc

/-- The `(seen, candidates)` state after the semantic phase of
`_find_candidates`. -/
def semanticState (doc : CNode) : List Nat × List CNode :=
  (semanticQuery doc).foldl add_if_new ([], [])

/-- The node sequence scanned by the fallback phase: the
`_FALLBACK_CANDIDATE_TAGS` loop (`div`, then `section`), unrolled. -/
def fallbackQuery (doc : CNode) : List CNode :=
  queryTag doc "div" ++ queryTag doc "section"

/-- One step of the fallback loop: `add_if_new` guarded by
`cache.get_text_length(node) > MIN_CHAR_THRESHOLD`.  The cache is passed as
the pure length function `tl` it implements (the Text Cache memoizes a pure
per-node computation, so lookups behave as a function of the node). -/
def fallbackStep (tl : CNode → Nat) (st : List Nat × List CNode) (n : CNode) :
    List Nat × List CNode :=
  if MIN_CHAR_THRESHOLD < tl n then add_if_new st n else st

/-- `_find_candidates(doc, cache)` from `candidate_finder.py`: semantic
phase; if it produced any candidate, return them, else run the fallback scan
continuing from the same state. -/
def _find_candidates (doc : CNode) (tl : CNode → Nat) : List CNode :=
  let st := semanticState doc
  if st.2.isEmpty then ((fallbackQuery doc).foldl (fallbackStep tl) st).2
  else st.2

/-- `ScoredCandidate` from `types.py`: a node with its content score (the
auxiliary fields mirror the dataclass; link density is kept as an integer
percentage). -/
structure ScoredCandidate where
  node : CNode
  score : Int
  content_length : Nat
  link_density : Nat

/-- `ScoredCandidate.__lt__` from `types.py`: `self.score > other.score`
(higher score sorts first). -/
def ScoredCandidate.lt (a b : ScoredCandidate) : Bool := decide (b.score < a.score)

mutual

/-- Total text length contained in anchor (`a`) elements below a node, for
link density. -/
def anchorTextLen : CNode → Nat
  | .text _ => 0
  | .elem i t a cs =>
    if t == "a" then (cNodeText (.elem i t a cs)).length else anchorTextLenL cs

/-- `anchorTextLen` over a child list. -/
def anchorTextLenL : List CNode → Nat
  | [] => 0
  | c :: r => anchorTextLen c + anchorTextLenL r

end

/-- Modelled from the spec: the Scorer's base weight keyed by tag name
(container-like tags score higher; exact weights are an implementation
choice). -/
def tag_weights (t : String) : Int :=
  if t == "article" || t == "main" then 10
  else if t == "section" || t == "div" then 5
  else if t == "ol" || t == "ul" || t == "li" then -3
  else 0

/-- Modelled from the spec: class/id keyword bonus/penalty using the same
pattern tables as `is_unlikely_candidate`. -/
def classIdBonus (n : CNode) : Int :=
  (if likely_patterns.any (fun p => subSeqIn p (classIdText n)) then 25 else 0)
    - (if unlikely_patterns.any (fun p => subSeqIn p (classIdText n)) then 25 else 0)

/-- Link density of a node as an integer percentage, from the cached total
length. -/
def linkDensityPct (n : CNode) (tl : CNode → Nat) : Nat :=
  min 100 (anchorTextLen n * 100 / max (tl n) 1)

/-- Modelled from the spec: the Scorer's content score — tag base weight,
cached text length with diminishing returns (capped), multiplicative link
density penalty, and class/id keyword bonus. -/
def contentScore (n : CNode) (tl : CNode → Nat) : Int :=
  tag_weights n.tagOf + classIdBonus n
    + Int.ofNat (min (tl n) 1000) * (100 - Int.ofNat (linkDensityPct n tl)) / 100

/-- Build the `ScoredCandidate` for a node. -/
def mkScored (tl : CNode → Nat) (n : CNode) : ScoredCandidate :=
  { node := n, score := contentScore n tl, content_length := tl n,
    link_density := linkDensityPct n tl }

/-- The scored sequence before sorting: unlikely candidates filtered out
(the spec requires they never appear in ranked output), others scored in
input order. -/
def scoredOf (nodes : List CNode) (tl : CNode → Nat) : List ScoredCandidate :=
  (nodes.filter (fun n => !is_unlikely_candidate n)).map (mkScored tl)

/-- The order used by Python's stable `sorted` with
`ScoredCandidate.__lt__`: `a` may stay before `b` unless `b < a`. -/
def sortLe (a b : ScoredCandidate) : Bool := !(ScoredCandidate.lt b a)

/-- Modelled from the spec: `rank_candidates(nodes, cache)` of the Scorer —
score each non-unlikely node and stable-sort descending by score (Python's
stable sort with the dataclass ordering of `types.py`). -/
def rank_candidates (nodes : List CNode) (tl : CNode → Nat) : List ScoredCandidate :=
  (scoredOf nodes tl).mergeSort sortLe

/-- The candidate list `find_top_candidate` hands to ranking: the discovered
candidates, or the `body` fallback (`doc.query("body")[0]`) when discovery
found nothing. -/
def _effective_candidates (doc : CNode) (tl : CNode → Nat) : List CNode :=
  let candidates := _find_candidates doc tl
  if candidates.isEmpty then
    match queryTag doc "body" with
    | [] => []
    | b :: _ => [b]
  else candidates

/-- `find_top_candidate(doc, cache)` from `candidate_finder.py`,
parameterized by the ranking function actually called (the source calls the
module-level `rank_candidates`, which tests monkey-patch): empty candidate
set returns `None`, empty ranking returns `None`, else the top-ranked
node. -/
def find_top_candidate_with
    (rank : List CNode → (CNode → Nat) → List ScoredCandidate)
    (doc : CNode) (tl : CNode → Nat) : Option CNode :=
  let candidates := _effective_candidates doc tl
  if candidates.isEmpty then none
  else
    match rank candidates tl with
    | [] => none
    | top :: _ => some top.node

/-- `find_top_candidate` with the real `rank_candidates`. -/
def find_top_candidate (doc : CNode) (tl : CNode → Nat) : Option CNode :=
  find_top_candidate_with rank_candidates doc tl

/-! ## Invariants of the candidate fold -/

/-- Invariant of `_find_candidates`' `(seen, candidates)` state: `seen` holds
exactly the identities of the collected candidates (the source adds to both
in the same guarded branch). -/
def seenInv (st : List Nat × List CNode) : Prop :=
  st.1 = (st.2.map CNode.nid).reverse

/-- All collected candidates are element nodes of the document. -/
def stOK (doc : CNode) (st : List Nat × List CNode) : Prop :=
  ∀ m ∈ st.2, m ∈ subnodes doc ∧ m.isElem = true

/-- Element identities are unambiguous in the document: equal identities on
element nodes mean the same node. -/
def idInj (doc : CNode) : Prop :=
  ∀ a b : CNode, a ∈ subnodes doc → b ∈ subnodes doc →
    a.isElem = true → b.isElem = true → a.nid = b.nid → a = b

/-! ## Candidate finder: stateful embedding (claim C10)

`find_top_candidate(doc, cache)` again, with the mutable `ExtractionCache`
kept explicit: every primitive the function calls is a state transformer
over the pair (document, cache), and the frame claim is that the document
component never changes. -/

/-- The `ExtractionCache`'s memo table, keyed by node identity.  Modelled
from the spec: `cache.py` is not part of the snapshot; the spec specifies a
mapping from node identity to computed text length. -/
structure ExtractionCache where
  entries : List (Nat × Nat)

/-- Modelled from the spec: `ExtractionCache.get_text_length(node)` — return
the memoized length, or compute, store and return it. -/
def cache_get_text_length (c : ExtractionCache) (n : CNode) : Nat × ExtractionCache :=
  match c.entries.lookup n.nid with
  | some v => (v, c)
  | none => (computeTextLength n, ⟨(n.nid, computeTextLength n) :: c.entries⟩)

/-- The mutable state visible to `find_top_candidate`: the document tree and
the extraction cache. -/
structure DocState where
  doc : CNode
  cache : ExtractionCache

/-- `doc.query(tag)` as a state transformer (a read: spec §6 queries return
matches without mutating). -/
def queryTagSt (s : DocState) (tag : String) : List CNode × DocState :=
  (queryTag s.doc tag, s)

/-- `doc.query('[role="main"]')` as a state transformer. -/
def queryRoleMainSt (s : DocState) : List CNode × DocState :=
  (queryRoleMain s.doc, s)

/-- `cache.get_text_length(node)` as a state transformer: may extend the
cache, touches nothing else. -/
def getTextLengthSt (s : DocState) (n : CNode) : Nat × DocState :=
  let r := cache_get_text_length s.cache n
  (r.1, { doc := s.doc, cache := r.2 })

/-- One iteration of the stateful fallback loop of `_find_candidates`. -/
def fallbackStepSt (acc : (List Nat × List CNode) × DocState) (n : CNode) :
    (List Nat × List CNode) × DocState :=
  let r := getTextLengthSt acc.2 n
  (if MIN_CHAR_THRESHOLD < r.1 then add_if_new acc.1 n else acc.1, r.2)

/-- `_find_candidates(doc, cache)` with the cache state explicit. -/
def _find_candidates_st (s : DocState) : List CNode × DocState :=
  let q1 := queryTagSt s "article"
  let q2 := queryTagSt q1.2 "main"
  let q3 := queryRoleMainSt q2.2
  let st := (q1.1 ++ q2.1 ++ q3.1).foldl add_if_new ([], [])
  if st.2.isEmpty then
    let q4 := queryTagSt q3.2 "div"
    let q5 := queryTagSt q4.2 "section"
    let r := (q4.1 ++ q5.1).foldl fallbackStepSt (st, q5.2)
    (r.1.2, r.2)
  else (st.2, q3.2)

/-- Modelled from the spec: `rank_candidates(nodes, cache)` with the cache
state explicit — fetch each non-unlikely node's cached text length, score,
stable-sort. -/
def rank_candidates_st (nodes : List CNode) (s : DocState) :
    List ScoredCandidate × DocState :=
  let r := (nodes.filter (fun n => !is_unlikely_candidate n)).foldl
    (fun acc n =>
      let g := getTextLengthSt acc.2 n
      (acc.1 ++ [mkScored (fun _ => g.1) n], g.2))
    (([] : List ScoredCandidate), s)
  (r.1.mergeSort sortLe, r.2)

/-- `find_top_candidate(doc, cache)` with the cache state explicit. -/
def find_top_candidate_st (s : DocState) : Option CNode × DocState :=
  let fc := _find_candidates_st s
  let c2 : List CNode × DocState :=
    if fc.1.isEmpty then
      let b := queryTagSt fc.2 "body"
      (match b.1 with | [] => [] | x :: _ => [x], b.2)
    else fc
  if c2.1.isEmpty then (none, c2.2)
  else
    let rk := rank_candidates_st c2.1 c2.2
    match rk.1 with
    | [] => (none, rk.2)
    | top :: _ => (some top.node, rk.2)

/-! ## Concrete documents for witnesses -/

/-- Document with one article (semantic candidate) and a sidebar div. -/
def sampleDoc : CNode :=
  .elem 0 "html" []
    [.elem 1 "body" []
      [.elem 2 "div" [("class", "sidebar")] [.text "menu menu menu"],
       .elem 3 "article" [("class", "content")]
        [.elem 4 "p" [] [.text "A real article paragraph with plenty of text."]],
       .elem 5 "main" [("role", "main")]
        [.elem 6 "p" [] [.text "Main region."]]]]

/-- Document with no semantic containers, no `body`, no content at all. -/
def docNoBody : CNode := .elem 0 "html" [] []

/-- Document whose only container is a short `div` inside `body`. -/
def fallbackDoc : CNode :=
  .elem 0 "html" []
    [.elem 1 "body" []
      [.elem 2 "div" [] [.text "short"]]]

/-- A ranking override returning nothing, as the tests inject with
`unittest.mock.patch`. -/
def emptyRanker : List CNode → (CNode → Nat) → List ScoredCandidate :=
  fun _ _ => []

/-! ## Proof development -/

/-! ## Lemmas towards sanitizer idempotence (claim C5) -/

theorem pyStrip_eq_nil_iff (l : List Char) :
    pyStrip l = [] ↔ ∀ c ∈ l, isPyWS c = true := by
  unfold pyStrip
  rw [List.reverse_eq_nil_iff, List.dropWhile_eq_nil_iff]
  constructor
  · intro h c hc
    have hsplit : c ∈ l.takeWhile isPyWS ++ l.dropWhile isPyWS := by
      rw [List.takeWhile_append_dropWhile]; exact hc
    rcases List.mem_append.mp hsplit with h1 | h2
    · exact List.mem_takeWhile_imp h1
    · exact h c (List.mem_reverse.mpr h2)
  · intro h c hc
    exact h c ((List.dropWhile_sublist _).subset (List.mem_reverse.mp hc))

theorem pyStrip_isEmpty_eq (l : List Char) : (pyStrip l).isEmpty = !(anyNonWS l) := by
  by_cases hall : ∀ c ∈ l, isPyWS c = true
  · have h1 : pyStrip l = [] := (pyStrip_eq_nil_iff l).mpr hall
    have h2 : anyNonWS l = false := by
      simp only [anyNonWS, List.any_eq_false]
      intro c hc
      simp [hall c hc]
    rw [h1, h2]
    rfl
  · have h1 : pyStrip l ≠ [] := fun h => hall ((pyStrip_eq_nil_iff l).mp h)
    have h2 : anyNonWS l = true := by
      simp only [anyNonWS, List.any_eq_true]
      push_neg at hall
      obtain ⟨c, hc, hne⟩ := hall
      exact ⟨c, hc, by simp [Bool.eq_false_iff.mpr hne]⟩
    rw [h2]
    simpa [List.isEmpty_iff] using h1

theorem nodeHasVisibleContent_eq (n : DNode) :
    nodeHasVisibleContent n = (anyNonWS (nodeText n) || hasValidImgDesc n) := by
  unfold nodeHasVisibleContent
  rw [pyStrip_isEmpty_eq, Bool.not_not]

theorem anyNonWS_append (a b : List Char) :
    anyNonWS (a ++ b) = (anyNonWS a || anyNonWS b) := by
  simp [anyNonWS, List.any_append]

theorem runPass_tagOf (tags : List String) (keep : DNode → Bool) (n : DNode) :
    (runPass tags keep n).tagOf = n.tagOf := by
  cases n <;> simp [runPass, DNode.tagOf]

theorem runPass_attrsOf (tags : List String) (keep : DNode → Bool) (n : DNode) :
    (runPass tags keep n).attrsOf = n.attrsOf := by
  cases n <;> simp [runPass, DNode.attrsOf]

theorem isImg_runPass (tags : List String) (keep : DNode → Bool) (n : DNode) :
    isImg (runPass tags keep n) = isImg n := by
  unfold isImg
  rw [runPass_tagOf]

theorem tagIn_runPass (tags : List String) (keep : DNode → Bool) (n : DNode)
    (tags2 : List String) : tagIn (runPass tags keep n) tags2 = tagIn n tags2 := by
  unfold tagIn
  rw [runPass_tagOf]

theorem valid_src_runPass (tags : List String) (keep : DNode → Bool) (n : DNode) :
    _has_valid_image_src (runPass tags keep n) = _has_valid_image_src n := by
  unfold _has_valid_image_src
  rw [runPass_attrsOf]

theorem allN_self {p : DNode → Bool} {t : DNode} (h : allN p t = true) : p t = true := by
  cases t with
  | text s => simpa [allN] using h
  | elem tg a cs => exact (Bool.and_eq_true_iff.mp (by simpa [allN] using h)).1

theorem allN_children {p : DNode → Bool} {tg : String} {a : List (String × String)}
    {cs : List DNode} (h : allN p (.elem tg a cs) = true) : allNL p cs = true :=
  (Bool.and_eq_true_iff.mp (by simpa [allN] using h)).2

theorem allNL_head {p : DNode → Bool} {c : DNode} {cs : List DNode}
    (h : allNL p (c :: cs) = true) : allN p c = true :=
  (Bool.and_eq_true_iff.mp (by simpa [allNL] using h)).1

theorem allNL_tail {p : DNode → Bool} {c : DNode} {cs : List DNode}
    (h : allNL p (c :: cs) = true) : allNL p cs = true :=
  (Bool.and_eq_true_iff.mp (by simpa [allNL] using h)).2

mutual

theorem allN_of_forall (p : DNode → Bool) (hp : ∀ n, p n = true) :
    ∀ t : DNode, allN p t = true
  | .text s => by simp [allN, hp]
  | .elem tg a cs => by simp [allN, hp, allNL_of_forall p hp cs]

theorem allNL_of_forall (p : DNode → Bool) (hp : ∀ n, p n = true) :
    ∀ cs : List DNode, allNL p cs = true
  | [] => by simp [allNL]
  | c :: rest => by simp [allNL, allN_of_forall p hp c, allNL_of_forall p hp rest]

end

mutual

theorem allN_mono (p q : DNode → Bool) (hpq : ∀ n, p n = true → q n = true) :
    ∀ t : DNode, allN p t = true → allN q t = true
  | .text s, h => by simpa [allN] using hpq _ (by simpa [allN] using h)
  | .elem tg a cs, h => by
    simp only [allN, Bool.and_eq_true_iff]
    exact ⟨hpq _ (allN_self h), allNL_mono p q hpq cs (allN_children h)⟩

theorem allNL_mono (p q : DNode → Bool) (hpq : ∀ n, p n = true → q n = true) :
    ∀ cs : List DNode, allNL p cs = true → allNL q cs = true
  | [], _ => by simp [allNL]
  | c :: rest, h => by
    simp only [allNL, Bool.and_eq_true_iff]
    exact ⟨allN_mono p q hpq c (allNL_head h), allNL_mono p q hpq rest (allNL_tail h)⟩

end

theorem remOK_removed {tags : List String} {keep : DNode → Bool} {n : DNode}
    (h : remOK tags keep n = true) (hrem : (tagIn n tags && !keep n) = true) :
    anyNonWS (nodeText n) = false ∧ validImgIncl n = false := by
  rcases Bool.and_eq_true_iff.mp hrem with ⟨htag, hkeep⟩
  have hk : keep n = false := by simpa using hkeep
  unfold remOK at h
  rw [htag, hk] at h
  simpa using h

mutual

theorem anyNonWS_runPass (tags : List String) (keep : DNode → Bool) :
    ∀ t : DNode, allN (remOK tags keep) t = true →
      anyNonWS (nodeText (runPass tags keep t)) = anyNonWS (nodeText t)
  | .text s, _ => rfl
  | .elem tg a cs, h => by
    simp only [runPass, nodeText]
    exact anyNonWS_runPassL tags keep cs (allN_children h)

theorem anyNonWS_runPassL (tags : List String) (keep : DNode → Bool) :
    ∀ cs : List DNode, allNL (remOK tags keep) cs = true →
      anyNonWS (nodeTextList (runPassL tags keep cs)) = anyNonWS (nodeTextList cs)
  | [], _ => rfl
  | c :: rest, h => by
    have hc := allNL_head h
    have hrest := allNL_tail h
    by_cases hrem : (tagIn c tags && !keep c) = true
    · have hdrop := remOK_removed (allN_self hc) hrem
      simp only [runPassL, hrem, if_true, nodeTextList, anyNonWS_append]
      rw [anyNonWS_runPassL tags keep rest hrest, hdrop.1]
      simp
    · simp only [runPassL, hrem, if_false, nodeTextList, anyNonWS_append]
      rw [anyNonWS_runPass tags keep c hc, anyNonWS_runPassL tags keep rest hrest]

end

mutual

theorem hasValidImgDesc_runPass (tags : List String) (keep : DNode → Bool) :
    ∀ t : DNode, allN (remOK tags keep) t = true →
      hasValidImgDesc (runPass tags keep t) = hasValidImgDesc t
  | .text s, _ => rfl
  | .elem tg a cs, h => by
    simp only [runPass, hasValidImgDesc]
    exact hasValidImgL_runPassL tags keep cs (allN_children h)

theorem hasValidImgL_runPassL (tags : List String) (keep : DNode → Bool) :
    ∀ cs : List DNode, allNL (remOK tags keep) cs = true →
      hasValidImgL (runPassL tags keep cs) = hasValidImgL cs
  | [], _ => rfl
  | c :: rest, h => by
    have hc := allNL_head h
    have hrest := allNL_tail h
    by_cases hrem : (tagIn c tags && !keep c) = true
    · have hdrop := remOK_removed (allN_self hc) hrem
      have hincl : ((isImg c && _has_valid_image_src c) || hasValidImgDesc c) = false := by
        simpa [validImgIncl] using hdrop.2
      simp only [runPassL, hrem, if_true, hasValidImgL]
      rw [hasValidImgL_runPassL tags keep rest hrest, hincl]
      simp
    · simp only [runPassL, hrem, if_false, hasValidImgL]
      rw [isImg_runPass, valid_src_runPass, hasValidImgDesc_runPass tags keep c hc,
        hasValidImgL_runPassL tags keep rest hrest]

end

theorem visible_runPass (tags : List String) (keep : DNode → Bool) (t : DNode)
    (h : allN (remOK tags keep) t = true) :
    nodeHasVisibleContent (runPass tags keep t) = nodeHasVisibleContent t := by
  rw [nodeHasVisibleContent_eq, nodeHasVisibleContent_eq,
    anyNonWS_runPass tags keep t h, hasValidImgDesc_runPass tags keep t h]

/-- For a visible-content pass whose tag set excludes `img`, every node
whatsoever satisfies `remOK`: removed nodes have no visible content, hence no
non-whitespace text, no valid image below, and are no image themselves. -/
theorem remOK_visible_total (tags : List String) (himg : tags.contains "img" = false)
    (n : DNode) : remOK tags nodeHasVisibleContent n = true := by
  unfold remOK
  by_cases h1 : (!(tagIn n tags) || nodeHasVisibleContent n) = true
  · rw [h1]; rfl
  · have h2 : (!(tagIn n tags) || nodeHasVisibleContent n) = false := by simpa using h1
    rcases Bool.or_eq_false_iff.mp h2 with ⟨htag, hvis⟩
    have htagIn : tagIn n tags = true := by simpa using htag
    have hvis' : (anyNonWS (nodeText n) || hasValidImgDesc n) = false := by
      rw [← nodeHasVisibleContent_eq]; exact hvis
    rcases Bool.or_eq_false_iff.mp hvis' with ⟨htext, hdesc⟩
    have himgn : isImg n = false := by
      by_cases he : n.tagOf = "img"
      · exfalso
        unfold tagIn at htagIn
        rw [he, himg] at htagIn
        exact Bool.false_ne_true htagIn
      · simp [isImg, he]
    have hincl : validImgIncl n = false := by simp [validImgIncl, himgn, hdesc]
    rw [htext, hincl]
    simp

theorem remOK_img_of_imgNoKids (n : DNode) (h : imgNoKids n = true) :
    remOK ["img"] _has_valid_image_src n = true := by
  unfold remOK
  by_cases h1 : (!(tagIn n ["img"]) || _has_valid_image_src n) = true
  · rw [h1]; rfl
  · have h2 : (!(tagIn n ["img"]) || _has_valid_image_src n) = false := by simpa using h1
    rcases Bool.or_eq_false_iff.mp h2 with ⟨htag, hkeep⟩
    have htagIn : tagIn n ["img"] = true := by simpa using htag
    have himgn : isImg n = true := by
      unfold tagIn at htagIn
      unfold isImg
      simpa using htagIn
    have hkids : n.childrenOf = [] := by
      unfold imgNoKids at h
      rw [himgn] at h
      simpa [List.isEmpty_iff] using h
    cases n with
    | text s => simp [isImg, DNode.tagOf] at himgn
    | elem tg a cs =>
      have hcs : cs = [] := hkids
      subst hcs
      have htext : anyNonWS (nodeText (DNode.elem tg a [])) = false := rfl
      have hincl : validImgIncl (DNode.elem tg a []) = false := by
        simp [validImgIncl, himgn, hkeep, hasValidImgDesc, hasValidImgL]
      rw [htext, hincl]
      simp

mutual

theorem runPass_of_passClean (tags : List String) (keep : DNode → Bool) :
    ∀ t : DNode, passClean tags keep t = true → runPass tags keep t = t
  | .text s, _ => rfl
  | .elem tg a cs, h => by
    simp only [runPass]
    rw [runPassL_of_passCleanL tags keep cs (by simpa [passClean] using h)]

theorem runPassL_of_passCleanL (tags : List String) (keep : DNode → Bool) :
    ∀ cs : List DNode, passCleanL tags keep cs = true → runPassL tags keep cs = cs
  | [], _ => rfl
  | c :: rest, h => by
    have h0 : ((!(tagIn c tags) || keep c) && passClean tags keep c
        && passCleanL tags keep rest) = true := h
    have h' := Bool.and_eq_true_iff.mp h0
    have h'' := Bool.and_eq_true_iff.mp h'.1
    have hrem : (tagIn c tags && !keep c) = false := by
      rcases Bool.or_eq_true_iff.mp h''.1 with hnt | hk
      · have : tagIn c tags = false := by simpa using hnt
        simp [this]
      · simp [hk]
    simp only [runPassL, hrem, Bool.false_eq_true, if_false]
    rw [runPass_of_passClean tags keep c h''.2, runPassL_of_passCleanL tags keep rest h'.2]

end

mutual

theorem passClean_runPass (tags : List String) (keep : DNode → Bool)
    (Hk : ∀ c, keep (runPass tags keep c) = keep c) :
    ∀ t : DNode, passClean tags keep (runPass tags keep t) = true
  | .text s => rfl
  | .elem tg a cs => by
    simp only [runPass, passClean]
    exact passCleanL_runPassL tags keep Hk cs

theorem passCleanL_runPassL (tags : List String) (keep : DNode → Bool)
    (Hk : ∀ c, keep (runPass tags keep c) = keep c) :
    ∀ cs : List DNode, passCleanL tags keep (runPassL tags keep cs) = true
  | [] => rfl
  | c :: rest => by
    by_cases hrem : (tagIn c tags && !keep c) = true
    · simp only [runPassL, hrem, if_true]
      exact passCleanL_runPassL tags keep Hk rest
    · have hcond : (!(tagIn c tags) || keep c) = true := by
        rcases Bool.and_eq_false_iff.mp (Bool.eq_false_iff.mpr hrem) with hnt | hk
        · simp [hnt]
        · have : keep c = true := by simpa using hk
          simp [this]
      simp only [runPassL, hrem, if_false, passCleanL, Bool.and_eq_true_iff]
      refine ⟨⟨?_, passClean_runPass tags keep Hk c⟩, passCleanL_runPassL tags keep Hk rest⟩
      rw [tagIn_runPass, Hk c]
      exact hcond

end

mutual

theorem passClean_preserved (tags1 : List String) (keep1 : DNode → Bool)
    (tags2 : List String) (keep2 : DNode → Bool) (q : DNode → Bool)
    (HkA : ∀ c, allN q c = true → keep1 (runPass tags2 keep2 c) = keep1 c) :
    ∀ t : DNode, passClean tags1 keep1 t = true → allN q t = true →
      passClean tags1 keep1 (runPass tags2 keep2 t) = true
  | .text s, _, _ => rfl
  | .elem tg a cs, h, hq => by
    simp only [runPass, passClean]
    exact passCleanL_preserved tags1 keep1 tags2 keep2 q HkA cs
      (by simpa [passClean] using h) (allN_children hq)

theorem passCleanL_preserved (tags1 : List String) (keep1 : DNode → Bool)
    (tags2 : List String) (keep2 : DNode → Bool) (q : DNode → Bool)
    (HkA : ∀ c, allN q c = true → keep1 (runPass tags2 keep2 c) = keep1 c) :
    ∀ cs : List DNode, passCleanL tags1 keep1 cs = true → allNL q cs = true →
      passCleanL tags1 keep1 (runPassL tags2 keep2 cs) = true
  | [], _, _ => rfl
  | c :: rest, h, hq => by
    have h0 : ((!(tagIn c tags1) || keep1 c) && passClean tags1 keep1 c
        && passCleanL tags1 keep1 rest) = true := h
    have h' := Bool.and_eq_true_iff.mp h0
    have h'' := Bool.and_eq_true_iff.mp h'.1
    by_cases hrem : (tagIn c tags2 && !keep2 c) = true
    · simp only [runPassL, hrem, if_true]
      exact passCleanL_preserved tags1 keep1 tags2 keep2 q HkA rest h'.2 (allNL_tail hq)
    · simp only [runPassL, hrem, if_false, passCleanL, Bool.and_eq_true_iff]
      refine ⟨⟨?_, passClean_preserved tags1 keep1 tags2 keep2 q HkA c h''.2 (allNL_head hq)⟩,
        passCleanL_preserved tags1 keep1 tags2 keep2 q HkA rest h'.2 (allNL_tail hq)⟩
      rw [tagIn_runPass, HkA c (allNL_head hq)]
      exact h''.1

end

mutual

theorem imgChildless_runPass (tags : List String) (keep : DNode → Bool) :
    ∀ t : DNode, allN imgNoKids t = true → allN imgNoKids (runPass tags keep t) = true
  | .text s, h => h
  | .elem tg a cs, h => by
    simp only [runPass, allN, Bool.and_eq_true_iff]
    constructor
    · have hroot : imgNoKids (.elem tg a cs) = true := allN_self h
      unfold imgNoKids at hroot ⊢
      rcases Bool.or_eq_true_iff.mp hroot with hni | hkids
      · simp [isImg, DNode.tagOf] at hni ⊢
        simp [hni]
      · have hcs : cs = [] := by simpa [DNode.childrenOf, List.isEmpty_iff] using hkids
        subst hcs
        simp [runPassL, DNode.childrenOf]
    · exact imgChildlessL_runPassL tags keep cs (allN_children h)

theorem imgChildlessL_runPassL (tags : List String) (keep : DNode → Bool) :
    ∀ cs : List DNode, allNL imgNoKids cs = true →
      allNL imgNoKids (runPassL tags keep cs) = true
  | [], _ => rfl
  | c :: rest, h => by
    by_cases hrem : (tagIn c tags && !keep c) = true
    · simp only [runPassL, hrem, if_true]
      exact imgChildlessL_runPassL tags keep rest (allNL_tail h)
    · simp only [runPassL, hrem, if_false, allNL, Bool.and_eq_true_iff]
      exact ⟨imgChildless_runPass tags keep c (allNL_head h),
        imgChildlessL_runPassL tags keep rest (allNL_tail h)⟩

end

/-- The visible-content keep predicate is invariant under the link pass and
the block pass (tag sets without `img`). -/
theorem visible_runPass_total (tags : List String) (himg : tags.contains "img" = false)
    (c : DNode) :
    nodeHasVisibleContent (runPass tags nodeHasVisibleContent c) = nodeHasVisibleContent c :=
  visible_runPass tags nodeHasVisibleContent c
    (allN_of_forall _ (remOK_visible_total tags himg) c)

/-- The visible-content keep predicate is invariant under the image pass on
subtrees whose `img` elements are childless. -/
theorem visible_runPass_img (c : DNode) (hc : allN imgNoKids c = true) :
    nodeHasVisibleContent (runPass ["img"] _has_valid_image_src c) = nodeHasVisibleContent c :=
  visible_runPass ["img"] _has_valid_image_src c
    (allN_mono imgNoKids _ remOK_img_of_imgNoKids c hc)

/-- C5: `sanitize_content` is idempotent on parser-produced subtrees (every
`img` element childless, as HTML's void `img` guarantees): a second call
performs zero additional removals, so the tree after the second call equals
the tree after the first. -/
theorem C5_sanitize_idempotent (t : DNode) (h : imgChildless t = true) :
    sanitize_content (sanitize_content t) = sanitize_content t := by
  have Hk1 : ∀ c, nodeHasVisibleContent (runPass ["a"] nodeHasVisibleContent c)
      = nodeHasVisibleContent c := visible_runPass_total ["a"] (by decide)
  have Hk3 : ∀ c, nodeHasVisibleContent (runPass ["li", "p", "div"] nodeHasVisibleContent c)
      = nodeHasVisibleContent c := visible_runPass_total ["li", "p", "div"] (by decide)
  have Hk2 : ∀ c, _has_valid_image_src (runPass ["img"] _has_valid_image_src c)
      = _has_valid_image_src c := valid_src_runPass ["img"] _has_valid_image_src
  have hImg1 : allN imgNoKids (_remove_empty_links t) = true :=
    imgChildless_runPass _ _ t h
  have hImg2 : allN imgNoKids (_remove_empty_images (_remove_empty_links t)) = true :=
    imgChildless_runPass _ _ _ hImg1
  have hL1 : passClean ["a"] nodeHasVisibleContent (_remove_empty_links t) = true :=
    passClean_runPass _ _ Hk1 t
  have hL2 : passClean ["a"] nodeHasVisibleContent
      (_remove_empty_images (_remove_empty_links t)) = true :=
    passClean_preserved ["a"] nodeHasVisibleContent ["img"] _has_valid_image_src imgNoKids
      (fun c hc => visible_runPass_img c hc) _ hL1 hImg1
  have hL3 : passClean ["a"] nodeHasVisibleContent (sanitize_content t) = true :=
    passClean_preserved ["a"] nodeHasVisibleContent ["li", "p", "div"] nodeHasVisibleContent
      imgNoKids (fun c _ => Hk3 c) _ hL2 hImg2
  have hI2 : passClean ["img"] _has_valid_image_src
      (_remove_empty_images (_remove_empty_links t)) = true :=
    passClean_runPass _ _ Hk2 _
  have hI3 : passClean ["img"] _has_valid_image_src (sanitize_content t) = true :=
    passClean_preserved ["img"] _has_valid_image_src ["li", "p", "div"] nodeHasVisibleContent
      imgNoKids (fun c _ => valid_src_runPass _ _ c) _ hI2 hImg2
  have hB3 : passClean ["li", "p", "div"] nodeHasVisibleContent (sanitize_content t) = true :=
    passClean_runPass _ _ Hk3 _
  show _remove_empty_blocks (_remove_empty_images (_remove_empty_links (sanitize_content t)))
      = sanitize_content t
  rw [show _remove_empty_links (sanitize_content t) = sanitize_content t from
      runPass_of_passClean _ _ _ hL3,
    show _remove_empty_images (sanitize_content t) = sanitize_content t from
      runPass_of_passClean _ _ _ hI3]
  exact runPass_of_passClean _ _ _ hB3

/-- Closed instance of `C5_sanitize_idempotent` on `sampleSubtree`. -/
theorem C5_witness :
    imgChildless sampleSubtree = true
    ∧ sanitize_content (sanitize_content sampleSubtree) = sanitize_content sampleSubtree :=
  ⟨by decide, C5_sanitize_idempotent sampleSubtree (by decide)⟩

/-! ## Theorems for claims C4 and C6 -/

/-- C4: the image-src validity predicate of the Content Sanitizer returns
invalid for `https://cdn.example.com/pixel.gif`, valid for
`https://cdn.example.com/hero.jpg`, invalid for bare `t.gif`, valid for bare
`bg.jpg`, and invalid for `https://tracking.example.com/ok.png` (host
starting with `tracking.`). -/
theorem C4_image_src_examples :
    _has_valid_image_src (.elem "img" [("src", "https://cdn.example.com/pixel.gif")] []) = false
    ∧ _has_valid_image_src (.elem "img" [("src", "https://cdn.example.com/hero.jpg")] []) = true
    ∧ _has_valid_image_src (.elem "img" [("src", "t.gif")] []) = false
    ∧ _has_valid_image_src (.elem "img" [("src", "bg.jpg")] []) = true
    ∧ _has_valid_image_src (.elem "img" [("src", "https://tracking.example.com/ok.png")] []) = false := by
  refine ⟨?_, ?_, ?_, ?_, ?_⟩ <;> decide

/-- C6: for an img whose stripped `src` starts with one of `data:`, `http`,
`//`, `/`, `./`, `../`, validity is decided exactly by the two tracking
checks: the filename-substring check on the case-lowered string and the
tracking-host check.  (The claim's lower-casing for pattern checks is visible
in the statement: the substring check runs on `pyLower`.) -/
theorem C6_path_src_valid_iff_no_tracking (src : List Char)
    (hstart : startsWithOneOf (pyStrip src) src_path_starts = true) :
    _has_valid_image_src (.elem "img" [("src", ⟨src⟩)] []) = true
      ↔ (tracking_patterns.any (fun p => subSeqIn p (pyLower (pyStrip src))) = false
         ∧ trackingDomainHit (pyStrip src) = false) := by
  have hne : (pyStrip src).isEmpty = false := by
    cases h : pyStrip src with
    | nil =>
      rw [h] at hstart
      simp [startsWithOneOf, src_path_starts, List.isPrefixOf] at hstart
    | cons a t => simp
  have hrfl : _has_valid_image_src (.elem "img" [("src", ⟨src⟩)] []) =
      if (pyStrip src).isEmpty then false else _has_valid_image_src_str (pyStrip src) := rfl
  rw [hrfl, hne]
  simp only [Bool.false_eq_true, if_false, _has_valid_image_src_str]
  by_cases h1 : tracking_patterns.any (fun p => subSeqIn p (pyLower (pyStrip src))) = true
  · simp [h1]
  · by_cases h2 : trackingDomainHit (pyStrip src) = true
    · simp [h1, h2]
    · simp [h1, h2, hstart]

/-- Closed instance of `C6_path_src_valid_iff_no_tracking` at the concrete
src `/images/photo.jpg`. -/
theorem C6_witness :
    startsWithOneOf (pyStrip "/images/photo.jpg".toList) src_path_starts = true
    ∧ (_has_valid_image_src (.elem "img" [("src", "/images/photo.jpg")] []) = true
        ↔ (tracking_patterns.any
             (fun p => subSeqIn p (pyLower (pyStrip "/images/photo.jpg".toList))) = false
           ∧ trackingDomainHit (pyStrip "/images/photo.jpg".toList) = false)) :=
  ⟨by decide, C6_path_src_valid_iff_no_tracking "/images/photo.jpg".toList (by decide)⟩

/-! ## Query and identity lemmas -/

mutual

theorem mem_collectNodes (p : CNode → Bool) :
    ∀ (d x : CNode), x ∈ collectNodes p d → x ∈ subnodes d ∧ p x = true
  | .text s, x, h => by
    simp only [collectNodes] at h
    by_cases hp : p (.text s) = true
    · rw [if_pos hp] at h
      have hx : x = .text s := by simpa using h
      subst hx
      exact ⟨by simp [subnodes], hp⟩
    · rw [if_neg hp] at h
      simp at h
  | .elem i t a cs, x, h => by
    simp only [collectNodes] at h
    rcases List.mem_append.mp h with h1 | h2
    · by_cases hp : p (.elem i t a cs) = true
      · rw [if_pos hp] at h1
        have hx : x = .elem i t a cs := by simpa using h1
        subst hx
        exact ⟨List.mem_cons_self _ _, hp⟩
      · rw [if_neg hp] at h1
        simp at h1
    · have hrec := mem_collectNodesL p cs x h2
      exact ⟨List.mem_cons_of_mem _ hrec.1, hrec.2⟩

theorem mem_collectNodesL (p : CNode → Bool) :
    ∀ (cs : List CNode) (x : CNode), x ∈ collectNodesL p cs → x ∈ subnodesL cs ∧ p x = true
  | [], x, h => by simp [collectNodesL] at h
  | c :: r, x, h => by
    simp only [collectNodesL] at h
    rcases List.mem_append.mp h with h1 | h2
    · have hrec := mem_collectNodes p c x h1
      exact ⟨List.mem_append.mpr (Or.inl hrec.1), hrec.2⟩
    · have hrec := mem_collectNodesL p r x h2
      exact ⟨List.mem_append.mpr (Or.inr hrec.1), hrec.2⟩

end

mutual

theorem nid_mem_subnodes :
    ∀ (d x : CNode), x ∈ subnodes d → x.isElem = true → x.nid ∈ nodeIds d
  | .text s, x, hm, he => by
    have hx : x = .text s := by simpa [subnodes] using hm
    subst hx
    simp [CNode.isElem] at he
  | .elem i t a cs, x, hm, he => by
    have hm' : x = .elem i t a cs ∨ x ∈ subnodesL cs := by simpa [subnodes] using hm
    rcases hm' with h1 | h2
    · subst h1
      simp [nodeIds, CNode.nid]
    · have hrec := nid_mem_subnodesL cs x h2 he
      simp [nodeIds, hrec]

theorem nid_mem_subnodesL :
    ∀ (cs : List CNode) (x : CNode), x ∈ subnodesL cs → x.isElem = true →
      x.nid ∈ nodeIdsL cs
  | [], x, hm, _ => by simp [subnodesL] at hm
  | c :: r, x, hm, he => by
    have hm' : x ∈ subnodes c ∨ x ∈ subnodesL r := by simpa [subnodesL] using hm
    rcases hm' with h1 | h2
    · simp [nodeIdsL, nid_mem_subnodes c x h1 he]
    · simp [nodeIdsL, nid_mem_subnodesL r x h2 he]

end

mutual

theorem nodeIds_inj :
    ∀ (d : CNode), (nodeIds d).Nodup → ∀ a b : CNode,
      a ∈ subnodes d → b ∈ subnodes d → a.isElem = true → b.isElem = true →
      a.nid = b.nid → a = b
  | .text s, _, a, b, ha, hb, hae, hbe, heq => by
    have hxa : a = .text s := by simpa [subnodes] using ha
    subst hxa
    simp [CNode.isElem] at hae
  | .elem i t ats cs, hnd, a, b, ha, hb, hae, hbe, heq => by
    have hnd' := List.nodup_cons.mp (by simpa [nodeIds] using hnd)
    have ha' : a = .elem i t ats cs ∨ a ∈ subnodesL cs := by simpa [subnodes] using ha
    have hb' : b = .elem i t ats cs ∨ b ∈ subnodesL cs := by simpa [subnodes] using hb
    rcases ha' with ha1 | ha2
    · rcases hb' with hb1 | hb2
      · rw [ha1, hb1]
      · exfalso
        subst ha1
        have hbm : b.nid ∈ nodeIdsL cs := nid_mem_subnodesL cs b hb2 hbe
        rw [← heq] at hbm
        exact hnd'.1 (by simpa [CNode.nid] using hbm)
    · rcases hb' with hb1 | hb2
      · exfalso
        subst hb1
        have ham : a.nid ∈ nodeIdsL cs := nid_mem_subnodesL cs a ha2 hae
        rw [heq] at ham
        exact hnd'.1 (by simpa [CNode.nid] using ham)
      · exact nodeIdsL_inj cs hnd'.2 a b ha2 hb2 hae hbe heq

theorem nodeIdsL_inj :
    ∀ (cs : List CNode), (nodeIdsL cs).Nodup → ∀ a b : CNode,
      a ∈ subnodesL cs → b ∈ subnodesL cs → a.isElem = true → b.isElem = true →
      a.nid = b.nid → a = b
  | [], _, a, b, ha, _, _, _, _ => by simp [subnodesL] at ha
  | c :: r, hnd, a, b, ha, hb, hae, hbe, heq => by
    have h3 := List.nodup_append.mp (by simpa [nodeIdsL] using hnd)
    have ha' : a ∈ subnodes c ∨ a ∈ subnodesL r := by simpa [subnodesL] using ha
    have hb' : b ∈ subnodes c ∨ b ∈ subnodesL r := by simpa [subnodesL] using hb
    rcases ha' with ha1 | ha2
    · rcases hb' with hb1 | hb2
      · exact nodeIds_inj c h3.1 a b ha1 hb1 hae hbe heq
      · exfalso
        exact h3.2.2 (nid_mem_subnodes c a ha1 hae)
          (heq ▸ nid_mem_subnodesL r b hb2 hbe)
    · rcases hb' with hb1 | hb2
      · exfalso
        exact h3.2.2 (heq ▸ nid_mem_subnodes c b hb1 hbe)
          (nid_mem_subnodesL r a ha2 hae)
      · exact nodeIdsL_inj r h3.2.1 a b ha2 hb2 hae hbe heq

end

theorem idInj_of_nodup {doc : CNode} (h : (nodeIds doc).Nodup) : idInj doc :=
  fun a b ha hb hae hbe heq => nodeIds_inj doc h a b ha hb hae hbe heq

theorem mem_queryTag {doc : CNode} {tag : String} {x : CNode}
    (h : x ∈ queryTag doc tag) : x ∈ subnodes doc ∧ x.tagOf = tag := by
  have hrec := mem_collectNodes _ doc x h
  exact ⟨hrec.1, by simpa using hrec.2⟩

theorem isElem_of_tag {x : CNode} {tag : String} (htag : tag ≠ "#text")
    (h : x.tagOf = tag) : x.isElem = true := by
  cases x with
  | text s =>
    simp only [CNode.tagOf] at h
    exact absurd h.symm htag
  | elem i t a cs => rfl

theorem mem_semanticQuery {doc x : CNode} (h : x ∈ semanticQuery doc) :
    x ∈ subnodes doc ∧ x.isElem = true := by
  unfold semanticQuery at h
  rcases List.mem_append.mp h with h12 | h3
  · rcases List.mem_append.mp h12 with h1 | h2
    · have hq := mem_queryTag h1
      exact ⟨hq.1, isElem_of_tag (by decide) hq.2⟩
    · have hq := mem_queryTag h2
      exact ⟨hq.1, isElem_of_tag (by decide) hq.2⟩
  · have hq := mem_collectNodes _ doc x h3
    refine ⟨hq.1, ?_⟩
    cases x with
    | text s => simp [hasRoleMain, CNode.attrsOf, getAttrVal] at hq
    | elem i t a cs => rfl

theorem mem_fallbackQuery {doc x : CNode} (h : x ∈ fallbackQuery doc) :
    x ∈ subnodes doc ∧ x.isElem = true := by
  unfold fallbackQuery at h
  rcases List.mem_append.mp h with h1 | h2
  · have hq := mem_queryTag h1
    exact ⟨hq.1, isElem_of_tag (by decide) hq.2⟩
  · have hq := mem_queryTag h2
    exact ⟨hq.1, isElem_of_tag (by decide) hq.2⟩

/-! ## Lemmas about the candidate fold -/

theorem add_if_new_cases (st : List Nat × List CNode) (n : CNode) :
    add_if_new st n = st ∨
      (add_if_new st n = (n.nid :: st.1, st.2 ++ [n])
        ∧ st.1.contains n.nid = false ∧ is_unlikely_candidate n = false) := by
  unfold add_if_new
  by_cases h : (st.1.contains n.nid || is_unlikely_candidate n) = true
  · left
    rw [if_pos h]
  · right
    rcases Bool.or_eq_false_iff.mp (Bool.eq_false_iff.mpr h) with ⟨h1, h2⟩
    exact ⟨by rw [if_neg h], h1, h2⟩

theorem mem_add_if_new {st : List Nat × List CNode} {n x : CNode}
    (h : x ∈ (add_if_new st n).2) :
    x ∈ st.2 ∨ (x = n ∧ is_unlikely_candidate n = false) := by
  rcases add_if_new_cases st n with hc | ⟨hc, _, hu⟩
  · rw [hc] at h
    exact Or.inl h
  · rw [hc] at h
    rcases List.mem_append.mp h with h1 | h2
    · exact Or.inl h1
    · exact Or.inr ⟨by simpa using h2, hu⟩

theorem mem_add_if_new_mono {st : List Nat × List CNode} {n x : CNode}
    (h : x ∈ st.2) : x ∈ (add_if_new st n).2 := by
  rcases add_if_new_cases st n with hc | ⟨hc, _, _⟩
  · rw [hc]
    exact h
  · rw [hc]
    exact List.mem_append.mpr (Or.inl h)

theorem foldl_add_mem :
    ∀ (l : List CNode) (st : List Nat × List CNode) (x : CNode),
      x ∈ (l.foldl add_if_new st).2 →
      x ∈ st.2 ∨ (x ∈ l ∧ is_unlikely_candidate x = false)
  | [], _, _, h => Or.inl h
  | a :: l, st, x, h => by
    rcases foldl_add_mem l (add_if_new st a) x h with h1 | h2
    · rcases mem_add_if_new h1 with h3 | ⟨h4, hu⟩
      · exact Or.inl h3
      · subst h4
        exact Or.inr ⟨List.mem_cons_self _ _, hu⟩
    · exact Or.inr ⟨List.mem_cons_of_mem _ h2.1, h2.2⟩

theorem foldl_add_mono :
    ∀ (l : List CNode) (st : List Nat × List CNode) (x : CNode),
      x ∈ st.2 → x ∈ (l.foldl add_if_new st).2
  | [], _, _, h => h
  | a :: l, st, x, h => foldl_add_mono l (add_if_new st a) x (mem_add_if_new_mono h)

theorem mem_fallbackStep {tl : CNode → Nat} {st : List Nat × List CNode} {n x : CNode}
    (h : x ∈ (fallbackStep tl st n).2) :
    x ∈ st.2 ∨ (x = n ∧ is_unlikely_candidate n = false ∧ MIN_CHAR_THRESHOLD < tl n) := by
  unfold fallbackStep at h
  by_cases hg : MIN_CHAR_THRESHOLD < tl n
  · rw [if_pos hg] at h
    rcases mem_add_if_new h with h1 | ⟨h2, hu⟩
    · exact Or.inl h1
    · exact Or.inr ⟨h2, hu, hg⟩
  · rw [if_neg hg] at h
    exact Or.inl h

theorem mem_fallbackStep_mono {tl : CNode → Nat} {st : List Nat × List CNode}
    {n x : CNode} (h : x ∈ st.2) : x ∈ (fallbackStep tl st n).2 := by
  unfold fallbackStep
  by_cases hg : MIN_CHAR_THRESHOLD < tl n
  · rw [if_pos hg]
    exact mem_add_if_new_mono h
  · rw [if_neg hg]
    exact h

theorem foldl_fallback_mem (tl : CNode → Nat) :
    ∀ (l : List CNode) (st : List Nat × List CNode) (x : CNode),
      x ∈ (l.foldl (fallbackStep tl) st).2 →
      x ∈ st.2 ∨ (x ∈ l ∧ is_unlikely_candidate x = false ∧ MIN_CHAR_THRESHOLD < tl x)
  | [], _, _, h => Or.inl h
  | a :: l, st, x, h => by
    rcases foldl_fallback_mem tl l (fallbackStep tl st a) x h with h1 | h2
    · rcases mem_fallbackStep h1 with h3 | ⟨h4, hu, hg⟩
      · exact Or.inl h3
      · subst h4
        exact Or.inr ⟨List.mem_cons_self _ _, hu, hg⟩
    · exact Or.inr ⟨List.mem_cons_of_mem _ h2.1, h2.2⟩

theorem foldl_fallback_mono (tl : CNode → Nat) :
    ∀ (l : List CNode) (st : List Nat × List CNode) (x : CNode),
      x ∈ st.2 → x ∈ (l.foldl (fallbackStep tl) st).2
  | [], _, _, h => h
  | a :: l, st, x, h =>
    foldl_fallback_mono tl l (fallbackStep tl st a) x (mem_fallbackStep_mono h)

theorem seenInv_add {st : List Nat × List CNode} {n : CNode} (h : seenInv st) :
    seenInv (add_if_new st n) := by
  rcases add_if_new_cases st n with hc | ⟨hc, _, _⟩
  · rw [hc]
    exact h
  · rw [hc]
    unfold seenInv at h ⊢
    simp [h]

theorem seenInv_fallbackStep {tl : CNode → Nat} {st : List Nat × List CNode} {n : CNode}
    (h : seenInv st) : seenInv (fallbackStep tl st n) := by
  unfold fallbackStep
  by_cases hg : MIN_CHAR_THRESHOLD < tl n
  · rw [if_pos hg]
    exact seenInv_add h
  · rw [if_neg hg]
    exact h

theorem seenInv_foldl_add :
    ∀ (l : List CNode) (st : List Nat × List CNode), seenInv st →
      seenInv (l.foldl add_if_new st)
  | [], _, h => h
  | a :: l, st, h => seenInv_foldl_add l (add_if_new st a) (seenInv_add h)

theorem nid_mem_add {st : List Nat × List CNode} {n : CNode} (hinv : seenInv st)
    (hu : is_unlikely_candidate n = false) :
    n.nid ∈ (add_if_new st n).2.map CNode.nid := by
  unfold add_if_new
  by_cases h : (st.1.contains n.nid || is_unlikely_candidate n) = true
  · rw [if_pos h]
    rcases Bool.or_eq_true_iff.mp h with h1 | h2
    · have hm : n.nid ∈ st.1 := by simpa using h1
      rw [hinv] at hm
      exact List.mem_reverse.mp hm
    · rw [h2] at hu
      cases hu
  · rw [if_neg h]
    simp

theorem nid_mem_add_mono {st : List Nat × List CNode} {n : CNode} {i : Nat}
    (h : i ∈ st.2.map CNode.nid) : i ∈ (add_if_new st n).2.map CNode.nid := by
  rcases List.mem_map.mp h with ⟨m, hm, hi⟩
  exact hi ▸ List.mem_map_of_mem _ (mem_add_if_new_mono hm)

theorem foldl_add_nid_mono :
    ∀ (l : List CNode) (st : List Nat × List CNode) (i : Nat),
      i ∈ st.2.map CNode.nid → i ∈ (l.foldl add_if_new st).2.map CNode.nid
  | [], _, _, h => h
  | a :: l, st, i, h => foldl_add_nid_mono l (add_if_new st a) i (nid_mem_add_mono h)

theorem foldl_add_nid_complete {n : CNode} :
    ∀ (l : List CNode) (st : List Nat × List CNode), seenInv st → n ∈ l →
      is_unlikely_candidate n = false →
      n.nid ∈ (l.foldl add_if_new st).2.map CNode.nid
  | [], _, _, hmem, _ => by cases hmem
  | a :: l, st, hinv, hmem, hu => by
    rcases List.mem_cons.mp hmem with h1 | h2
    · subst h1
      exact foldl_add_nid_mono l (add_if_new st n) n.nid (nid_mem_add hinv hu)
    · exact foldl_add_nid_complete l (add_if_new st a) (seenInv_add hinv) h2 hu

theorem nodup_add {st : List Nat × List CNode} {n : CNode} (hinv : seenInv st)
    (hnd : (st.2.map CNode.nid).Nodup) : ((add_if_new st n).2.map CNode.nid).Nodup := by
  rcases add_if_new_cases st n with hc | ⟨hc, hcon, _⟩
  · rw [hc]
    exact hnd
  · rw [hc]
    have hnotin : n.nid ∉ st.2.map CNode.nid := by
      intro hmem
      have hm : n.nid ∈ st.1 := by
        rw [hinv]
        exact List.mem_reverse.mpr hmem
      have : st.1.contains n.nid = true := by simpa using hm
      rw [hcon] at this
      cases this
    have hperm : (st.2.map CNode.nid ++ [n.nid]).Perm (n.nid :: st.2.map CNode.nid) :=
      List.perm_append_singleton _ _
    simp only [List.map_append, List.map_cons, List.map_nil]
    exact hperm.nodup_iff.mpr (List.nodup_cons.mpr ⟨hnotin, hnd⟩)

theorem nodup_fallbackStep {tl : CNode → Nat} {st : List Nat × List CNode} {n : CNode}
    (hinv : seenInv st) (hnd : (st.2.map CNode.nid).Nodup) :
    ((fallbackStep tl st n).2.map CNode.nid).Nodup := by
  unfold fallbackStep
  by_cases hg : MIN_CHAR_THRESHOLD < tl n
  · rw [if_pos hg]
    exact nodup_add hinv hnd
  · rw [if_neg hg]
    exact hnd

theorem nodup_foldl_add :
    ∀ (l : List CNode) (st : List Nat × List CNode), seenInv st →
      (st.2.map CNode.nid).Nodup → ((l.foldl add_if_new st).2.map CNode.nid).Nodup
  | [], _, _, hnd => hnd
  | a :: l, st, hinv, hnd =>
    nodup_foldl_add l (add_if_new st a) (seenInv_add hinv) (nodup_add hinv hnd)

theorem nodup_foldl_fallback (tl : CNode → Nat) :
    ∀ (l : List CNode) (st : List Nat × List CNode), seenInv st →
      (st.2.map CNode.nid).Nodup →
      ((l.foldl (fallbackStep tl) st).2.map CNode.nid).Nodup
  | [], _, _, hnd => hnd
  | a :: l, st, hinv, hnd =>
    nodup_foldl_fallback tl l (fallbackStep tl st a) (seenInv_fallbackStep hinv)
      (nodup_fallbackStep hinv hnd)

theorem add_if_new_adds {st : List Nat × List CNode} {n : CNode}
    (hcon : st.1.contains n.nid = false) (hu : is_unlikely_candidate n = false) :
    add_if_new st n = (n.nid :: st.1, st.2 ++ [n]) := by
  unfold add_if_new
  rw [hcon, hu]
  rfl

theorem stOK_add {doc : CNode} {st : List Nat × List CNode} {a : CNode}
    (h : stOK doc st) (ha : a ∈ subnodes doc ∧ a.isElem = true) :
    stOK doc (add_if_new st a) := by
  intro m hm
  rcases mem_add_if_new hm with h1 | ⟨h2, _⟩
  · exact h m h1
  · exact h2 ▸ ha

theorem stOK_fallbackStep {doc : CNode} {tl : CNode → Nat} {st : List Nat × List CNode}
    {a : CNode} (h : stOK doc st) (ha : a ∈ subnodes doc ∧ a.isElem = true) :
    stOK doc (fallbackStep tl st a) := by
  intro m hm
  rcases mem_fallbackStep hm with h1 | ⟨h2, _, _⟩
  · exact h m h1
  · exact h2 ▸ ha

theorem seen_to_member {doc : CNode} {st : List Nat × List CNode} {n : CNode}
    (hinj : idInj doc) (hinv : seenInv st) (hok : stOK doc st)
    (hn : n ∈ subnodes doc ∧ n.isElem = true)
    (hcon : st.1.contains n.nid = true) : n ∈ st.2 := by
  have hm : n.nid ∈ st.1 := by simpa using hcon
  rw [hinv] at hm
  rcases List.mem_map.mp (List.mem_reverse.mp hm) with ⟨m, hmem, heq⟩
  have hmok := hok m hmem
  have : m = n := hinj m n hmok.1 hn.1 hmok.2 hn.2 heq
  exact this ▸ hmem

theorem foldl_add_complete {doc : CNode} (hinj : idInj doc) {n : CNode}
    (hu : is_unlikely_candidate n = false) :
    ∀ (l : List CNode) (st : List Nat × List CNode),
      seenInv st → stOK doc st → (∀ x ∈ l, x ∈ subnodes doc ∧ x.isElem = true) →
      n ∈ l → n ∈ (l.foldl add_if_new st).2
  | [], _, _, _, _, hmem => by cases hmem
  | a :: l, st, hinv, hok, hl, hmem => by
    rcases List.mem_cons.mp hmem with h1 | h2
    · subst h1
      by_cases hcon : st.1.contains n.nid = true
      · have hns : n ∈ st.2 :=
          seen_to_member hinj hinv hok (hl n (List.mem_cons_self _ _)) hcon
        exact foldl_add_mono l (add_if_new st n) n (mem_add_if_new_mono hns)
      · have hadd := add_if_new_adds (Bool.eq_false_iff.mpr hcon) hu
        refine foldl_add_mono l (add_if_new st n) n ?_
        rw [hadd]
        exact List.mem_append.mpr (Or.inr (List.mem_cons_self _ _))
    · exact foldl_add_complete hinj hu l (add_if_new st a) (seenInv_add hinv)
        (stOK_add hok (hl a (List.mem_cons_self _ _)))
        (fun x hx => hl x (List.mem_cons_of_mem _ hx)) h2

theorem foldl_fallback_complete {doc : CNode} {tl : CNode → Nat} (hinj : idInj doc)
    {n : CNode} (hu : is_unlikely_candidate n = false)
    (hg : MIN_CHAR_THRESHOLD < tl n) :
    ∀ (l : List CNode) (st : List Nat × List CNode),
      seenInv st → stOK doc st → (∀ x ∈ l, x ∈ subnodes doc ∧ x.isElem = true) →
      n ∈ l → n ∈ (l.foldl (fallbackStep tl) st).2
  | [], _, _, _, _, hmem => by cases hmem
  | a :: l, st, hinv, hok, hl, hmem => by
    rcases List.mem_cons.mp hmem with h1 | h2
    · subst h1
      have hstep : fallbackStep tl st n = add_if_new st n := by
        unfold fallbackStep
        rw [if_pos hg]
      by_cases hcon : st.1.contains n.nid = true
      · have hns : n ∈ st.2 :=
          seen_to_member hinj hinv hok (hl n (List.mem_cons_self _ _)) hcon
        exact foldl_fallback_mono tl l (fallbackStep tl st n) n
          (mem_fallbackStep_mono hns)
      · have hadd := add_if_new_adds (Bool.eq_false_iff.mpr hcon) hu
        refine foldl_fallback_mono tl l (fallbackStep tl st n) n ?_
        rw [hstep, hadd]
        exact List.mem_append.mpr (Or.inr (List.mem_cons_self _ _))
    · exact foldl_fallback_complete hinj hu hg l (fallbackStep tl st a)
        (seenInv_fallbackStep hinv)
        (stOK_fallbackStep hok (hl a (List.mem_cons_self _ _)))
        (fun x hx => hl x (List.mem_cons_of_mem _ hx)) h2

theorem seenInv_nil : seenInv (([] : List Nat), ([] : List CNode)) := rfl

theorem find_candidates_sem {doc : CNode} {tl : CNode → Nat}
    (h : (semanticState doc).2.isEmpty = false) :
    _find_candidates doc tl = (semanticState doc).2 := by
  unfold _find_candidates
  simp [h]

theorem find_candidates_fallback {doc : CNode} (tl : CNode → Nat)
    (h : (semanticState doc).2.isEmpty = true) :
    _find_candidates doc tl
      = ((fallbackQuery doc).foldl (fallbackStep tl) (semanticState doc)).2 := by
  unfold _find_candidates
  simp [h]

/-! ## Claim theorems for the candidate finder -/

theorem rank_no_unlikely {L : List CNode} {tl : CNode → Nat} {c : ScoredCandidate}
    (hc : c ∈ rank_candidates L tl) : is_unlikely_candidate c.node = false := by
  unfold rank_candidates at hc
  have hmem := (List.mergeSort_perm (scoredOf L tl) sortLe).mem_iff.mp hc
  unfold scoredOf at hmem
  rcases List.mem_map.mp hmem with ⟨m, hm, hc'⟩
  rcases List.mem_filter.mp hm with ⟨_, hum⟩
  rw [← hc']
  simpa [mkScored] using hum

/-- C2: if the semantic phase yields at least one candidate, the fallback
scan is not performed and the candidate set is exactly the semantic
candidates, whatever the cached text lengths `tl` say. -/
theorem C2_semantic_phase_exclusive (doc : CNode) (tl : CNode → Nat)
    (h : (semanticState doc).2.isEmpty = false) :
    _find_candidates doc tl = (semanticState doc).2 :=
  find_candidates_sem h

/-- Closed instance of `C2_semantic_phase_exclusive` on `sampleDoc` with a
text-length cache reporting every node empty (maximally short semantic
candidates). -/
theorem C2_witness :
    (semanticState sampleDoc).2.isEmpty = false
    ∧ _find_candidates sampleDoc (fun _ => 0) = (semanticState sampleDoc).2 :=
  ⟨rfl, C2_semantic_phase_exclusive sampleDoc (fun _ => 0) rfl⟩

/-- C1: a node classified unlikely is never in the discovered candidate set,
never in the ranked output (on any path, including the body fallback, since
ranking filters before scoring), and never returned by
`find_top_candidate`. -/
theorem C1_unlikely_filtered (doc : CNode) (tl : CNode → Nat) (n : CNode)
    (h : is_unlikely_candidate n = true) :
    n ∉ _find_candidates doc tl
    ∧ (∀ c ∈ rank_candidates (_effective_candidates doc tl) tl, c.node ≠ n)
    ∧ find_top_candidate doc tl ≠ some n := by
  have hrank : ∀ {L : List CNode} (c : ScoredCandidate),
      c ∈ rank_candidates L tl → c.node ≠ n := by
    intro L c hc he
    have := rank_no_unlikely hc
    rw [he, h] at this
    cases this
  refine ⟨?_, fun c hc => hrank c hc, ?_⟩
  · intro hmem
    by_cases hsem : (semanticState doc).2.isEmpty = true
    · rw [find_candidates_fallback tl hsem] at hmem
      rcases foldl_fallback_mem tl (fallbackQuery doc) (semanticState doc) n hmem with
        h1 | ⟨_, hu, _⟩
      · rw [List.isEmpty_iff.mp hsem] at h1
        cases h1
      · rw [h] at hu
        cases hu
    · rw [find_candidates_sem (Bool.eq_false_iff.mpr hsem)] at hmem
      rcases foldl_add_mem (semanticQuery doc) ([], []) n hmem with h1 | ⟨_, hu⟩
      · cases h1
      · rw [h] at hu
        cases hu
  · unfold find_top_candidate find_top_candidate_with
    by_cases he : (_effective_candidates doc tl).isEmpty = true
    · simp [he]
    · simp only [Bool.eq_false_iff.mpr he, Bool.false_eq_true, if_false]
      cases hr : rank_candidates (_effective_candidates doc tl) tl with
      | nil => simp
      | cons top rest =>
        have htop : top.node ≠ n := hrank top (hr ▸ List.mem_cons_self _ _)
        simp [htop]

/-- Closed instance of `C1_unlikely_filtered`: the sidebar div of
`sampleDoc` is unlikely, and is neither discovered nor ranked nor
returned. -/
theorem C1_witness :
    is_unlikely_candidate (CNode.elem 2 "div" [("class", "sidebar")]
        [.text "menu menu menu"]) = true
    ∧ ((CNode.elem 2 "div" [("class", "sidebar")] [.text "menu menu menu"])
          ∉ _find_candidates sampleDoc computeTextLength
        ∧ (∀ c ∈ rank_candidates (_effective_candidates sampleDoc computeTextLength)
              computeTextLength,
            c.node ≠ CNode.elem 2 "div" [("class", "sidebar")] [.text "menu menu menu"])
        ∧ find_top_candidate sampleDoc computeTextLength
            ≠ some (CNode.elem 2 "div" [("class", "sidebar")] [.text "menu menu menu"])) :=
  ⟨by decide, C1_unlikely_filtered sampleDoc computeTextLength _ (by decide)⟩

/-- C7: `find_top_candidate` signals "nothing found" with an absent result,
never an exception: with no discovered candidates and no `body` it returns
`none`, and an (injected) empty ranking of the candidate set also yields
`none` rather than an error. -/
theorem C7_absent_not_raise (doc : CNode) (tl : CNode → Nat)
    (rank : List CNode → (CNode → Nat) → List ScoredCandidate) :
    ((_find_candidates doc tl).isEmpty = true → queryTag doc "body" = [] →
      find_top_candidate_with rank doc tl = none)
    ∧ (rank (_effective_candidates doc tl) tl = [] →
      find_top_candidate_with rank doc tl = none) := by
  constructor
  · intro h1 h2
    unfold find_top_candidate_with _effective_candidates
    simp [h1, h2]
  · intro h
    unfold find_top_candidate_with
    by_cases he : (_effective_candidates doc tl).isEmpty = true
    · simp [he]
    · simp only [Bool.eq_false_iff.mpr he, Bool.false_eq_true, if_false]
      rw [h]

/-- Closed instance of `C7_absent_not_raise`: a document with neither
candidates nor body yields `none`, and an injected empty ranker on a
document with an article also yields `none`. -/
theorem C7_witness :
    find_top_candidate_with rank_candidates docNoBody (fun _ => 0) = none
    ∧ find_top_candidate_with emptyRanker sampleDoc (fun _ => 0) = none :=
  ⟨(C7_absent_not_raise docNoBody (fun _ => 0) rank_candidates).1 rfl rfl,
   (C7_absent_not_raise sampleDoc (fun _ => 0) emptyRanker).2 rfl⟩

theorem sortLe_trans (a b c : ScoredCandidate) (hab : sortLe a b = true)
    (hbc : sortLe b c = true) : sortLe a c = true := by
  simp only [sortLe, ScoredCandidate.lt, Bool.not_eq_true', decide_eq_false_iff_not,
    not_lt] at hab hbc ⊢
  exact le_trans hbc hab

theorem sortLe_total (a b : ScoredCandidate) : (sortLe a b || sortLe b a) = true := by
  simp only [sortLe, ScoredCandidate.lt, Bool.not_eq_true', decide_eq_false_iff_not,
    not_lt, Bool.or_eq_true]
  rcases le_total a.score b.score with h | h
  · exact Or.inr h
  · exact Or.inl h

/-- C9: `rank_candidates` stable-sorts the scored candidates descending by
score — the output is pairwise descending, and for any score value the
equal-score candidates appear in exactly their input (document) order. -/
theorem C9_rank_stable_sorted (nodes : List CNode) (tl : CNode → Nat) :
    (rank_candidates nodes tl).Pairwise (fun a b => b.score ≤ a.score)
    ∧ ∀ s : Int, (rank_candidates nodes tl).filter (fun c => c.score == s)
        = (scoredOf nodes tl).filter (fun c => c.score == s) := by
  constructor
  · have hp := List.sorted_mergeSort sortLe_trans sortLe_total (scoredOf nodes tl)
    refine hp.imp ?_
    intro a b hab
    simpa [sortLe, ScoredCandidate.lt, Bool.not_eq_true', decide_eq_false_iff_not,
      not_lt] using hab
  · intro s
    have hpairs : ((scoredOf nodes tl).filter (fun c => c.score == s)).Pairwise
        (fun a b => sortLe a b = true) := by
      apply List.pairwise_of_forall_mem_list
      intro a ha b hb
      have ha' : a.score = s := by simpa using (List.mem_filter.mp ha).2
      have hb' : b.score = s := by simpa using (List.mem_filter.mp hb).2
      simp [sortLe, ScoredCandidate.lt, ha', hb']
    have hsub : ((scoredOf nodes tl).filter (fun c => c.score == s)).Sublist
        ((scoredOf nodes tl).mergeSort sortLe) :=
      List.mergeSort_stable sortLe_trans sortLe_total hpairs (List.filter_sublist _)
    have hff : ((scoredOf nodes tl).filter (fun c => c.score == s)).filter
        (fun c => c.score == s) = (scoredOf nodes tl).filter (fun c => c.score == s) :=
      List.filter_eq_self.mpr (fun a ha => (List.mem_filter.mp ha).2)
    have hsub2 : ((scoredOf nodes tl).filter (fun c => c.score == s)).Sublist
        (((scoredOf nodes tl).mergeSort sortLe).filter (fun c => c.score == s)) := by
      have := hsub.filter (fun c => c.score == s)
      rwa [hff] at this
    have hlen : (((scoredOf nodes tl).mergeSort sortLe).filter
        (fun c => c.score == s)).length
        = ((scoredOf nodes tl).filter (fun c => c.score == s)).length :=
      ((List.mergeSort_perm (scoredOf nodes tl) sortLe).filter _).length_eq
    exact (hsub2.eq_of_length hlen.symm).symm

/-- C3: with the semantic phase empty, a scanned `div`/`section` node is in
the candidate set exactly when its cached text length strictly exceeds
`MIN_CHAR_THRESHOLD` (and it survives the unlikely filter, dedup resolving by
identity); consequently if every such node is at or under the threshold the
candidate set is empty and `find_top_candidate` falls through to the `body`
node. -/
theorem C3_fallback_threshold (doc : CNode) (tl : CNode → Nat)
    (hids : (nodeIds doc).Nodup) (hsem : (semanticState doc).2 = []) :
    (∀ n ∈ fallbackQuery doc,
      (n ∈ _find_candidates doc tl
        ↔ (MIN_CHAR_THRESHOLD < tl n ∧ is_unlikely_candidate n = false)))
    ∧ ((∀ n ∈ fallbackQuery doc, tl n ≤ MIN_CHAR_THRESHOLD) →
        _find_candidates doc tl = []
          ∧ ∀ b bs, queryTag doc "body" = b :: bs →
              is_unlikely_candidate b = false →
              find_top_candidate doc tl = some b) := by
  have hempty : (semanticState doc).2.isEmpty = true := by
    rw [hsem]
    rfl
  have hfc := find_candidates_fallback tl hempty
  have hinv : seenInv (semanticState doc) := seenInv_foldl_add _ _ seenInv_nil
  have hok : stOK doc (semanticState doc) := by
    intro m hm
    rw [hsem] at hm
    cases hm
  constructor
  · intro n hn
    constructor
    · intro hmem
      rw [hfc] at hmem
      rcases foldl_fallback_mem tl _ _ n hmem with h1 | ⟨_, hu, hg⟩
      · rw [hsem] at h1
        cases h1
      · exact ⟨hg, hu⟩
    · intro hh
      rw [hfc]
      exact foldl_fallback_complete (idInj_of_nodup hids) hh.2 hh.1 _ _ hinv hok
        (fun x hx => mem_fallbackQuery hx) hn
  · intro hshort
    have hnil : _find_candidates doc tl = [] := by
      rw [hfc, List.eq_nil_iff_forall_not_mem]
      intro x hx
      rcases foldl_fallback_mem tl _ _ x hx with h1 | ⟨hxq, _, hg⟩
      · rw [hsem] at h1
        cases h1
      · exact absurd hg (not_lt.mpr (hshort x hxq))
    refine ⟨hnil, ?_⟩
    intro b bs hbody hub
    unfold find_top_candidate find_top_candidate_with _effective_candidates
    rw [hnil, hbody]
    simp only [List.isEmpty_nil, if_true, List.isEmpty_cons, Bool.false_eq_true, if_false]
    unfold rank_candidates scoredOf
    simp [hub, List.mergeSort_singleton, mkScored]

/-- Closed instance of `C3_fallback_threshold` on `fallbackDoc` (one short
div only): the finder falls through to the `body` node. -/
theorem C3_witness :
    (nodeIds fallbackDoc).Nodup
    ∧ (semanticState fallbackDoc).2 = []
    ∧ (∀ n ∈ fallbackQuery fallbackDoc, computeTextLength n ≤ MIN_CHAR_THRESHOLD)
    ∧ find_top_candidate fallbackDoc computeTextLength
        = some (CNode.elem 1 "body" [] [.elem 2 "div" [] [.text "short"]]) :=
  ⟨by decide, rfl, by decide,
   ((C3_fallback_threshold fallbackDoc computeTextLength (by decide) rfl).2
      (by decide)).2
     (CNode.elem 1 "body" [] [.elem 2 "div" [] [.text "short"]]) [] rfl (by decide)⟩

/-- C8: with unambiguous element identities, no node appears twice in the
discovered candidate set (deduplication keys on identity, not structure),
and a non-unlikely node produced by both a semantic tag query and the
semantic selector query enters exactly once. -/
theorem C8_dedup_by_identity (doc : CNode) (tl : CNode → Nat)
    (hids : (nodeIds doc).Nodup) :
    ((_find_candidates doc tl).map CNode.nid).Nodup
    ∧ ∀ n ∈ semanticQuery doc, is_unlikely_candidate n = false →
        (n ∈ _find_candidates doc tl
          ∧ ((_find_candidates doc tl).map CNode.nid).count n.nid = 1) := by
  have hndsem : ((semanticState doc).2.map CNode.nid).Nodup :=
    nodup_foldl_add _ _ seenInv_nil (by simp)
  have hnd : ((_find_candidates doc tl).map CNode.nid).Nodup := by
    by_cases hsem : (semanticState doc).2.isEmpty = true
    · rw [find_candidates_fallback tl hsem]
      exact nodup_foldl_fallback tl _ _ (seenInv_foldl_add _ _ seenInv_nil) hndsem
    · rw [find_candidates_sem (Bool.eq_false_iff.mpr hsem)]
      exact hndsem
  refine ⟨hnd, ?_⟩
  intro n hn hu
  have hok : stOK doc (([], []) : List Nat × List CNode) := fun m hm => by cases hm
  have hmemsem : n ∈ (semanticState doc).2 :=
    foldl_add_complete (idInj_of_nodup hids) hu _ _ seenInv_nil hok
      (fun x hx => mem_semanticQuery hx) hn
  have hne : (semanticState doc).2.isEmpty = false := by
    cases hc : (semanticState doc).2 with
    | nil =>
      rw [hc] at hmemsem
      cases hmemsem
    | cons a tail => rfl
  have hmem : n ∈ _find_candidates doc tl := by
    rw [find_candidates_sem hne]
    exact hmemsem
  exact ⟨hmem, List.count_eq_one_of_mem hnd (List.mem_map_of_mem _ hmem)⟩

/-- Closed instance of `C8_dedup_by_identity`: the `<main role="main">` of
`sampleDoc` matches both the `main` tag query and the `[role="main"]`
selector query, yet is counted once in the candidate set. -/
theorem C8_witness :
    (nodeIds sampleDoc).Nodup
    ∧ ((_find_candidates sampleDoc computeTextLength).map CNode.nid).Nodup
    ∧ ((CNode.elem 5 "main" [("role", "main")]
          [.elem 6 "p" [] [.text "Main region."]]) ∈ _find_candidates sampleDoc computeTextLength
        ∧ ((_find_candidates sampleDoc computeTextLength).map CNode.nid).count
            (CNode.elem 5 "main" [("role", "main")]
              [.elem 6 "p" [] [.text "Main region."]]).nid = 1) :=
  ⟨by decide,
   (C8_dedup_by_identity sampleDoc computeTextLength (by decide)).1,
   (C8_dedup_by_identity sampleDoc computeTextLength (by decide)).2
     (CNode.elem 5 "main" [("role", "main")] [.elem 6 "p" [] [.text "Main region."]])
     (List.mem_cons_of_mem _ (List.mem_cons_self _ _)) (by decide)⟩

/-! ## Claim C10: the finder never mutates the document -/

theorem getTextLengthSt_doc (s : DocState) (n : CNode) :
    ((getTextLengthSt s n).2).doc = s.doc := rfl

theorem foldl_fallbackSt_doc :
    ∀ (l : List CNode) (acc : (List Nat × List CNode) × DocState),
      ((l.foldl fallbackStepSt acc).2).doc = acc.2.doc
  | [], _ => rfl
  | a :: l, acc => by
    rw [List.foldl_cons, foldl_fallbackSt_doc l (fallbackStepSt acc a)]
    rfl

theorem foldl_scoreStep_doc :
    ∀ (l : List CNode) (acc : List ScoredCandidate × DocState),
      ((l.foldl (fun acc n =>
          let g := getTextLengthSt acc.2 n
          (acc.1 ++ [mkScored (fun _ => g.1) n], g.2)) acc).2).doc = acc.2.doc
  | [], _ => rfl
  | a :: l, acc => by
    rw [List.foldl_cons, foldl_scoreStep_doc l _]
    rfl

theorem rank_candidates_st_doc (nodes : List CNode) (s : DocState) :
    ((rank_candidates_st nodes s).2).doc = s.doc := by
  unfold rank_candidates_st
  exact foldl_scoreStep_doc _ _

theorem find_candidates_st_doc (s : DocState) :
    ((_find_candidates_st s).2).doc = s.doc := by
  unfold _find_candidates_st queryTagSt queryRoleMainSt
  simp only
  split
  · exact foldl_fallbackSt_doc _ _
  · rfl

/-- C10: `find_top_candidate` is a pure reader of the document: the document
tree component of the state is unchanged by the call — only the extraction
cache may differ. -/
theorem C10_find_top_no_doc_mutation (s : DocState) :
    ((find_top_candidate_st s).2).doc = s.doc := by
  unfold find_top_candidate_st queryTagSt
  simp only
  split
  all_goals try split
  all_goals simp only [rank_candidates_st_doc, find_candidates_st_doc]
  all_goals try split
  all_goals simp only [rank_candidates_st_doc, find_candidates_st_doc]

end ArticleExtractor
